import Mathlib

/-!
# Verification of the proxy-kp reverse proxy core

Shallow embedding of the Go sources of `proxy-kp` (smooth weighted
round-robin balancer, active health checker, TTL response cache,
per-client token-bucket rate limiter, dispatcher), together with
theorems settling the specification claims.

Machine integers of the Go code are modelled as `Int`; for every claim
below the values involved stay far below the `int64` bounds, so no
wrap-around modelling is needed.  Wall-clock instants (`time.Time`) are
modelled as explicit integer (cache, health checker) or rational
(rate limiter) timestamps passed to each operation, matching the
injectable-clock reading of the design notes.
-/

namespace ProxyKP

/-! ## Balancer: `pkg/balancer/backend.go` -/

/-- One upstream backend: mirror of `balancer.Backend` (URL, static
weight, SWRR accumulator `CurrentWeight`, liveness flag). -/
structure Backend where
  url : String
  weight : Int
  currentWeight : Int
  healthy : Bool
  deriving Repr, DecidableEq

/-- Mirror of `balancer.NewBackend`: a fresh backend starts with
`CurrentWeight = 0` and `Healthy = true`. -/
def newBackend (url : String) (weight : Int) : Backend :=
  { url := url, weight := weight, currentWeight := 0, healthy := true }

/-- Mirror of `Backend.SetHealthy`: write the liveness flag. -/
def Backend.setHealthy (b : Backend) (healthy : Bool) : Backend :=
  { b with healthy := healthy }

/-- Mirror of `Backend.IsHealthy`: read the liveness flag. -/
def Backend.isHealthy (b : Backend) : Bool :=
  b.healthy

/-- The balancer's pool: the `backends` slice of `balancer.SRR`.
`NewSRR` starts from the empty slice. -/
abbrev Pool := List Backend

/-- Mirror of `SRR.AddBackend`: append to the slice. -/
def addBackend (bs : Pool) (b : Backend) : Pool :=
  bs ++ [b]

/-- Mirror of `SRR.SetHealthy`: find the first backend with the given URL and set
its flag; report whether a backend matched. -/
def srrSetHealthy : Pool → String → Bool → Bool × Pool
  | [], _, _ => (false, [])
  | b :: rest, url, h =>
    if b.url = url then
      (true, b.setHealthy h :: rest)
    else
      let r := srrSetHealthy rest url h
      (r.1, b :: r.2)

/-- First loop of `SRR.NextBackend`: every healthy backend gets
`CurrentWeight += Weight`, and the healthy weights are summed into
`totalWeight`.  Returns the updated slice and the total. -/
def bumpAndTotal : Pool → Pool × Int
  | [] => ([], 0)
  | b :: rest =>
    let r := bumpAndTotal rest
    if b.isHealthy then
      ({ b with currentWeight := b.currentWeight + b.weight } :: r.1, b.weight + r.2)
    else
      (b :: r.1, r.2)

/-- Second loop of `SRR.NextBackend`: left-to-right scan keeping the
first healthy backend with strictly greatest `CurrentWeight`.  `i` is
the index of the head of the remaining list, `best` the current
`(index, CurrentWeight)` candidate (`nil` in the Go code). -/
def scanBest : Nat → Pool → Option (Nat × Int) → Option (Nat × Int)
  | _, [], best => best
  | i, b :: rest, best =>
    if b.isHealthy then
      match best with
      | none => scanBest (i + 1) rest (some (i, b.currentWeight))
      | some (bi, bw) =>
        if bw < b.currentWeight then
          scanBest (i + 1) rest (some (i, b.currentWeight))
        else
          scanBest (i + 1) rest (some (bi, bw))
    else
      scanBest (i + 1) rest best

/-- The update `best.CurrentWeight -= totalWeight` on the backend at index `i`. -/
def decAt : Pool → Nat → Int → Pool
  | [], _, _ => []
  | b :: rest, 0, t => { b with currentWeight := b.currentWeight - t } :: rest
  | b :: rest, n + 1, t => b :: decAt rest n t

/-- Mirror of `SRR.NextBackend`.  Returns the index of the chosen backend
(`none` standing for the `ErrNoHealthyBackends` return) together with
the pool as left behind by the call: the Go code mutates the
`CurrentWeight` fields in place, so the pool resulting from the first
loop is kept even on the `totalWeight == 0` error path. -/
def nextBackend (bs : Pool) : Option Nat × Pool :=
  if bs.length = 0 then
    (none, bs)
  else
    let r := bumpAndTotal bs
    if r.2 = 0 then
      (none, r.1)
    else
      match scanBest 0 r.1 none with
      | none => (none, r.1)
      | some (bi, _) => (some bi, decAt r.1 bi r.2)

/-- Sum of the `CurrentWeight` accumulators over the pool. -/
def sumCW (bs : Pool) : Int :=
  (bs.map Backend.currentWeight).sum

/-- Sum of the static weights over the pool. -/
def sumW (bs : Pool) : Int :=
  (bs.map Backend.weight).sum

/-- Iterate `NextBackend` `k` times, recording each call's outcome
(`some i` = backend at index `i` returned, `none` = error). -/
def runSteps : Nat → Pool → Pool × List (Option Nat)
  | 0, bs => (bs, [])
  | k + 1, bs =>
    let r := nextBackend bs
    let rest := runSteps k r.2
    (rest.1, r.1 :: rest.2)

example : nextBackend [newBackend "a" 1, newBackend "b" 2] =
    (some 1, [⟨"a", 1, 1, true⟩, ⟨"b", 2, -1, true⟩]) := by decide

example :
    ((runSteps 6 [newBackend "a" 1, newBackend "b" 2, newBackend "c" 3]).2).count (some 2) = 3 := by
  decide

/-! ### Balancer lemmas -/

/-- The per-backend effect of the first `NextBackend` loop. -/
def bumpB (b : Backend) : Backend :=
  if b.isHealthy then { b with currentWeight := b.currentWeight + b.weight } else b

/-- The per-backend contribution to `totalWeight`. -/
def healthyW (b : Backend) : Int :=
  if b.isHealthy then b.weight else 0

lemma bumpAndTotal_fst (bs : Pool) : (bumpAndTotal bs).1 = bs.map bumpB := by
  induction bs with
  | nil => rfl
  | cons b rest ih =>
    simp only [bumpAndTotal, List.map_cons, bumpB]
    split <;> simp [ih]

lemma bumpAndTotal_snd (bs : Pool) : (bumpAndTotal bs).2 = (bs.map healthyW).sum := by
  induction bs with
  | nil => rfl
  | cons b rest ih =>
    simp only [bumpAndTotal, List.map_cons, List.sum_cons, healthyW]
    split <;> simp [ih]

lemma bumpB_healthy (b : Backend) : (bumpB b).healthy = b.healthy := by
  simp only [bumpB, Backend.isHealthy]
  split <;> rfl

lemma bumpB_weight (b : Backend) : (bumpB b).weight = b.weight := by
  simp only [bumpB, Backend.isHealthy]
  split <;> rfl

lemma bumpB_url (b : Backend) : (bumpB b).url = b.url := by
  simp only [bumpB, Backend.isHealthy]
  split <;> rfl

lemma bumpB_unhealthy (b : Backend) (h : b.healthy = false) : bumpB b = b := by
  simp [bumpB, Backend.isHealthy, h]

lemma sumCW_bump (bs : Pool) :
    sumCW (bs.map bumpB) = sumCW bs + (bs.map healthyW).sum := by
  induction bs with
  | nil => rfl
  | cons b rest ih =>
    simp only [sumCW, List.map_cons, List.sum_cons, List.map_map] at ih ⊢
    simp only [bumpB, healthyW, Backend.isHealthy]
    split <;> simp <;> omega

lemma decAt_length (bs : Pool) (i : Nat) (t : Int) : (decAt bs i t).length = bs.length := by
  induction bs generalizing i with
  | nil => rfl
  | cons b rest ih =>
    cases i with
    | zero => rfl
    | succ n => simp [decAt, ih]

lemma decAt_getElem?_ne (bs : Pool) (i : Nat) (t : Int) (j : Nat) (hne : j ≠ i) :
    (decAt bs i t)[j]? = bs[j]? := by
  induction bs generalizing i j with
  | nil => rfl
  | cons b rest ih =>
    cases i with
    | zero =>
      cases j with
      | zero => exact absurd rfl hne
      | succ m => simp [decAt]
    | succ n =>
      cases j with
      | zero => simp [decAt]
      | succ m =>
        simp only [decAt, List.getElem?_cons_succ]
        exact ih n m (fun h => hne (by omega))

lemma decAt_getElem?_eq (bs : Pool) (i : Nat) (t : Int) :
    (decAt bs i t)[i]? =
      bs[i]?.map (fun b => { b with currentWeight := b.currentWeight - t }) := by
  induction bs generalizing i with
  | nil => simp [decAt]
  | cons b rest ih =>
    cases i with
    | zero => simp [decAt]
    | succ n => simpa [decAt] using ih n

lemma sumCW_decAt (bs : Pool) (i : Nat) (t : Int) (hi : i < bs.length) :
    sumCW (decAt bs i t) = sumCW bs - t := by
  induction bs generalizing i with
  | nil => simp at hi
  | cons b rest ih =>
    cases i with
    | zero => simp only [decAt, sumCW, List.map_cons, List.sum_cons]; ring
    | succ n =>
      simp only [decAt, sumCW, List.map_cons, List.sum_cons] at *
      have := ih n (by simpa using hi)
      omega

lemma scanBest_isSome_acc (bs : Pool) :
    ∀ (i : Nat) (q : Nat × Int), (scanBest i bs (some q)).isSome := by
  induction bs with
  | nil => intro i q; rfl
  | cons b rest ih =>
    intro i q
    obtain ⟨qi, qw⟩ := q
    by_cases hb : b.isHealthy
    · simp only [scanBest, hb, if_true]
      split <;> exact ih _ _
    · simp only [scanBest, hb, if_false]
      exact ih _ _

lemma scanBest_isSome_of_healthy (bs : Pool) :
    ∀ (i : Nat) (best : Option (Nat × Int)),
      (∃ b ∈ bs, b.healthy = true) → (scanBest i bs best).isSome := by
  induction bs with
  | nil => rintro i best ⟨b, hb, _⟩; simp at hb
  | cons b rest ih =>
    rintro i best ⟨c, hc, hch⟩
    by_cases hb : b.isHealthy
    · cases best with
      | none =>
        simp only [scanBest, hb, if_true]
        exact scanBest_isSome_acc rest (i + 1) _
      | some q =>
        obtain ⟨qi, qw⟩ := q
        simp only [scanBest, hb, if_true]
        split <;> exact scanBest_isSome_acc _ _ _
    · rcases List.mem_cons.mp hc with rfl | hcr
      · simp [Backend.isHealthy, hch] at hb
      · simp only [scanBest, hb, if_false]
        exact ih _ _ ⟨c, hcr, hch⟩

lemma scanBest_mem (bs : Pool) :
    ∀ (i : Nat) (best : Option (Nat × Int)) (bi : Nat) (bw : Int),
      scanBest i bs best = some (bi, bw) →
      best = some (bi, bw) ∨
        ∃ j b, bs[j]? = some b ∧ bi = i + j ∧ b.healthy = true ∧ b.currentWeight = bw := by
  induction bs with
  | nil => intro i best bi bw h; exact Or.inl h
  | cons b rest ih =>
    intro i best bi bw h
    have hbH : b.isHealthy = true → b.healthy = true := fun h => h
    by_cases hb : b.isHealthy
    · cases best with
      | none =>
        simp only [scanBest, hb, if_true] at h
        rcases ih (i + 1) (some (i, b.currentWeight)) bi bw h with hacc | ⟨j, c, hj, hbi, hch, hcw⟩
        · simp only [Option.some.injEq, Prod.mk.injEq] at hacc
          exact Or.inr ⟨0, b, by simp, by omega, hbH hb, hacc.2⟩
        · exact Or.inr ⟨j + 1, c, by simpa using hj, by omega, hch, hcw⟩
      | some q =>
        obtain ⟨qi, qw⟩ := q
        simp only [scanBest, hb, if_true] at h
        split at h
        · rcases ih (i + 1) (some (i, b.currentWeight)) bi bw h with hacc | ⟨j, c, hj, hbi, hch, hcw⟩
          · simp only [Option.some.injEq, Prod.mk.injEq] at hacc
            exact Or.inr ⟨0, b, by simp, by omega, hbH hb, hacc.2⟩
          · exact Or.inr ⟨j + 1, c, by simpa using hj, by omega, hch, hcw⟩
        · rcases ih (i + 1) (some (qi, qw)) bi bw h with hacc | ⟨j, c, hj, hbi, hch, hcw⟩
          · exact Or.inl hacc
          · exact Or.inr ⟨j + 1, c, by simpa using hj, by omega, hch, hcw⟩
    · simp only [scanBest, hb, if_false] at h
      rcases ih (i + 1) best bi bw h with hacc | ⟨j, c, hj, hbi, hch, hcw⟩
      · exact Or.inl hacc
      · exact Or.inr ⟨j + 1, c, by simpa using hj, by omega, hch, hcw⟩

lemma scanBest_ge (bs : Pool) :
    ∀ (i : Nat) (best : Option (Nat × Int)) (bi : Nat) (bw : Int),
      scanBest i bs best = some (bi, bw) →
      (∀ q : Nat × Int, best = some q → q.2 ≤ bw) ∧
        ∀ (j : Nat) (c : Backend), bs[j]? = some c → c.healthy = true → c.currentWeight ≤ bw := by
  induction bs with
  | nil =>
    intro i best bi bw h
    refine ⟨fun q hq => ?_, fun j c hj _ => by simp at hj⟩
    have h' : best = some (bi, bw) := h
    rw [h'] at hq
    simp only [Option.some.injEq] at hq
    subst hq
    exact le_refl _
  | cons b rest ih =>
    intro i best bi bw h
    by_cases hb : b.isHealthy
    · cases best with
      | none =>
        simp only [scanBest, hb, if_true] at h
        have := ih (i + 1) (some (i, b.currentWeight)) bi bw h
        refine ⟨fun q hq => by simp at hq, fun j c hj hch => ?_⟩
        cases j with
        | zero =>
          simp only [List.getElem?_cons_zero, Option.some.injEq] at hj
          subst hj
          exact this.1 (i, b.currentWeight) rfl
        | succ m => exact this.2 m c (by simpa using hj) hch
      | some q =>
        obtain ⟨qi, qw⟩ := q
        simp only [scanBest, hb, if_true] at h
        split at h
        · rename_i hlt
          have := ih (i + 1) (some (i, b.currentWeight)) bi bw h
          have hbw : b.currentWeight ≤ bw := this.1 (i, b.currentWeight) rfl
          refine ⟨fun q hq => ?_, fun j c hj hch => ?_⟩
          · simp only [Option.some.injEq] at hq
            subst hq
            exact le_of_lt (lt_of_lt_of_le hlt hbw)
          · cases j with
            | zero =>
              simp only [List.getElem?_cons_zero, Option.some.injEq] at hj
              subst hj
              exact hbw
            | succ m => exact this.2 m c (by simpa using hj) hch
        · rename_i hge
          have := ih (i + 1) (some (qi, qw)) bi bw h
          have hqw : qw ≤ bw := this.1 (qi, qw) rfl
          refine ⟨fun q hq => ?_, fun j c hj hch => ?_⟩
          · simp only [Option.some.injEq] at hq
            subst hq
            exact hqw
          · cases j with
            | zero =>
              simp only [List.getElem?_cons_zero, Option.some.injEq] at hj
              subst hj
              exact le_trans (le_of_not_lt hge) hqw
            | succ m => exact this.2 m c (by simpa using hj) hch
    · simp only [scanBest, hb, if_false] at h
      have := ih (i + 1) best bi bw h
      refine ⟨this.1, fun j c hj hch => ?_⟩
      cases j with
      | zero =>
        simp only [List.getElem?_cons_zero, Option.some.injEq] at hj
        subst hj
        exact absurd hch (by simpa [Backend.isHealthy] using hb)
      | succ m => exact this.2 m c (by simpa using hj) hch

/-- If no backend is healthy, the first loop accumulates `totalWeight = 0`. -/
lemma total_eq_zero_of_no_healthy (bs : Pool) (h : ∀ b ∈ bs, b.healthy = false) :
    (bumpAndTotal bs).2 = 0 := by
  rw [bumpAndTotal_snd]
  apply List.sum_eq_zero
  intro x hx
  obtain ⟨b, hb, rfl⟩ := List.mem_map.mp hx
  simp [healthyW, Backend.isHealthy, h b hb]

/-- A nonzero `totalWeight` requires some healthy backend. -/
lemma exists_healthy_of_total_ne_zero (bs : Pool) (h : (bumpAndTotal bs).2 ≠ 0) :
    ∃ b ∈ bs, b.healthy = true := by
  by_contra hc
  push_neg at hc
  exact h (total_eq_zero_of_no_healthy bs (fun b hb => by
    have := hc b hb
    cases hb' : b.healthy
    · rfl
    · exact absurd hb' this))

/-- Case analysis of `SRR.NextBackend`, with the pool it leaves behind. -/
lemma nextBackend_cases (bs : Pool) :
    (bs.length = 0 ∧ nextBackend bs = (none, bs)) ∨
    ((bumpAndTotal bs).2 = 0 ∧ bs.length ≠ 0 ∧
      nextBackend bs = (none, (bumpAndTotal bs).1)) ∨
    (∃ bi bw, bs.length ≠ 0 ∧ (bumpAndTotal bs).2 ≠ 0 ∧
      scanBest 0 (bumpAndTotal bs).1 none = some (bi, bw) ∧
      nextBackend bs = (some bi, decAt (bumpAndTotal bs).1 bi (bumpAndTotal bs).2)) := by
  by_cases h0 : bs.length = 0
  · exact Or.inl ⟨h0, by simp [nextBackend, h0]⟩
  · by_cases ht : (bumpAndTotal bs).2 = 0
    · exact Or.inr (Or.inl ⟨ht, h0, by simp [nextBackend, h0, ht]⟩)
    · refine Or.inr (Or.inr ?_)
      obtain ⟨b, hb, hbh⟩ := exists_healthy_of_total_ne_zero bs ht
      have hsome : (scanBest 0 (bumpAndTotal bs).1 none).isSome := by
        apply scanBest_isSome_of_healthy
        exact ⟨bumpB b, by rw [bumpAndTotal_fst]; exact List.mem_map.mpr ⟨b, hb, rfl⟩,
          by rw [bumpB_healthy]; exact hbh⟩
      obtain ⟨⟨bi, bw⟩, hq⟩ := Option.isSome_iff_exists.mp hsome
      refine ⟨bi, bw, h0, ht, hq, ?_⟩
      simp only [nextBackend, h0, ht, if_false]
      rw [hq]

lemma nextBackend_length (bs : Pool) : (nextBackend bs).2.length = bs.length := by
  rcases nextBackend_cases bs with ⟨_, h⟩ | ⟨_, _, h⟩ | ⟨bi, bw, _, _, _, h⟩ <;> rw [h]
  · rw [bumpAndTotal_fst, List.length_map]
  · rw [decAt_length, bumpAndTotal_fst, List.length_map]

/-- A `NextBackend` call never changes the sum of the `CurrentWeight` accumulators:
the first loop adds exactly `totalWeight`, and on success the chosen backend
gives the same total back (on the error paths `totalWeight` is zero). -/
lemma nextBackend_sumCW (bs : Pool) : sumCW (nextBackend bs).2 = sumCW bs := by
  rcases nextBackend_cases bs with ⟨_, h⟩ | ⟨ht, _, h⟩ | ⟨bi, bw, _, ht, hscan, h⟩ <;> rw [h]
  · rw [bumpAndTotal_fst, sumCW_bump, ← bumpAndTotal_snd, ht, add_zero]
  · have hmem := scanBest_mem _ _ _ _ _ hscan
    rcases hmem with hacc | ⟨j, c, hj, hbi, _, _⟩
    · exact absurd hacc (by simp)
    · have hlt : bi < (bumpAndTotal bs).1.length := by
        obtain ⟨hlen, _⟩ := List.getElem?_eq_some.mp hj
        omega
      rw [sumCW_decAt _ _ _ hlt, bumpAndTotal_fst, sumCW_bump, ← bumpAndTotal_snd]
      rw [bumpAndTotal_fst] at *
      ring

/-- An unhealthy backend is completely untouched by `NextBackend`: the first
loop skips it and the decrement only hits the (healthy) chosen backend. -/
lemma nextBackend_unhealthy_frame (bs : Pool) (j : Nat) (b : Backend)
    (hj : bs[j]? = some b) (hb : b.healthy = false) :
    (nextBackend bs).2[j]? = some b := by
  have hbump : (bumpAndTotal bs).1[j]? = some b := by
    rw [bumpAndTotal_fst, List.getElem?_map, hj]
    simp [bumpB_unhealthy b hb]
  rcases nextBackend_cases bs with ⟨_, h⟩ | ⟨_, _, h⟩ | ⟨bi, bw, _, _, hscan, h⟩ <;> rw [h]
  · exact hj
  · exact hbump
  · have hmem := scanBest_mem _ _ _ _ _ hscan
    rcases hmem with hacc | ⟨j', c, hj', hbi, hch, _⟩
    · exact absurd hacc (by simp)
    · have hne : j ≠ bi := by
        intro he
        have hj'2 : (bumpAndTotal bs).1[j]? = some c := by
          have hjj : j' = j := by omega
          rw [← hjj]
          exact hj'
        rw [hbump] at hj'2
        injection hj'2 with hbc
        subst hbc
        rw [hch] at hb
        exact Bool.noConfusion hb
      rw [decAt_getElem?_ne _ _ _ _ hne]
      exact hbump

/-! ## Dispatcher entry: `Handler.ServeHTTP` (`internal/proxy`) -/

/-- Outcome of the backend-selection step of `Handler.ServeHTTP`: either the
`http.Error(w, "Service Unavailable", http.StatusServiceUnavailable)` reply
when `NextBackend` fails, or the request is forwarded to the chosen backend. -/
inductive DispatchStep where
  | serviceUnavailable
  | forward (idx : Nat)
  deriving Repr, DecidableEq

/-- The first step of `Handler.ServeHTTP`: call `balancer.NextBackend` and
reply 503 on error. -/
def dispatchSelect (bs : Pool) : DispatchStep × Pool :=
  match nextBackend bs with
  | (none, bs') => (.serviceUnavailable, bs')
  | (some i, bs') => (.forward i, bs')

/-- The HTTP status the dispatcher writes at this step (`503` in the error
branch, undetermined yet when it proceeds upstream). -/
def DispatchStep.status : DispatchStep → Option Nat
  | .serviceUnavailable => some 503
  | .forward _ => none

/-- Claim C2. SWRR liveness and failure value: with positive static weights (the
configuration validates `weight > 0`), a pool containing a healthy backend
makes `NextBackend` return a healthy backend; with no healthy backend
(including the empty pool) it returns the `ErrNoHealthyBackends` error value,
and the dispatcher answers the client with `503 Service Unavailable`. -/
theorem nextBackend_liveness (bs : Pool) (hw : ∀ b ∈ bs, 0 < b.weight) :
    ((∃ b ∈ bs, b.healthy = true) →
      ∃ i b', (nextBackend bs).1 = some i ∧ (nextBackend bs).2[i]? = some b' ∧
        b'.healthy = true) ∧
    ((∀ b ∈ bs, b.healthy = false) →
      (nextBackend bs).1 = none ∧ (dispatchSelect bs).1.status = some 503) := by
  constructor
  · rintro ⟨c, hc, hch⟩
    have h0 : ∀ x ∈ bs.map healthyW, 0 ≤ x := by
      intro x hx
      obtain ⟨b, hb, rfl⟩ := List.mem_map.mp hx
      by_cases hbh : b.isHealthy
      · simpa [healthyW, hbh] using le_of_lt (hw b hb)
      · simp [healthyW, hbh]
    have hcip : 0 < healthyW c := by
      simpa [healthyW, Backend.isHealthy, hch] using hw c hc
    have hle : healthyW c ≤ (bs.map healthyW).sum :=
      List.single_le_sum h0 _ (List.mem_map.mpr ⟨c, hc, rfl⟩)
    have ht : (bumpAndTotal bs).2 ≠ 0 := by
      rw [bumpAndTotal_snd]
      omega
    rcases nextBackend_cases bs with ⟨h0', _⟩ | ⟨ht', _, _⟩ | ⟨bi, bw, _, _, hscan, h⟩
    · rw [List.length_eq_zero] at h0'
      subst h0'
      simp at hc
    · exact absurd ht' ht
    · rcases scanBest_mem _ _ _ _ _ hscan with hacc | ⟨j, d, hj, hbi, hch', hcw⟩
      · exact absurd hacc (by simp)
      · have hbij : bi = j := by omega
        subst hbij
        refine ⟨bi, { d with currentWeight := d.currentWeight - (bumpAndTotal bs).2 },
          by rw [h], ?_, hch'⟩
        rw [h]
        simp only [decAt_getElem?_eq, hj, Option.map_some']
  · intro hnone
    have ht : (bumpAndTotal bs).2 = 0 := total_eq_zero_of_no_healthy bs hnone
    rcases nextBackend_cases bs with ⟨_, h⟩ | ⟨_, _, h⟩ | ⟨bi, bw, _, ht', _, _⟩
    · exact ⟨by rw [h], by simp [dispatchSelect, h, DispatchStep.status]⟩
    · exact ⟨by rw [h], by simp [dispatchSelect, h, DispatchStep.status]⟩
    · exact absurd ht ht'

/-- Witness for C2: a pool with one healthy and one unhealthy backend yields a
healthy pick; an all-unhealthy pool yields the error and a 503 reply. -/
theorem nextBackend_liveness_witness :
    (∃ i b', (nextBackend [newBackend "a" 1, (newBackend "b" 2).setHealthy false]).1 = some i ∧
      (nextBackend [newBackend "a" 1, (newBackend "b" 2).setHealthy false]).2[i]? = some b' ∧
      b'.healthy = true) ∧
    ((nextBackend [(newBackend "c" 1).setHealthy false]).1 = none ∧
      (dispatchSelect [(newBackend "c" 1).setHealthy false]).1.status = some 503) := by
  constructor
  · exact (nextBackend_liveness [newBackend "a" 1, (newBackend "b" 2).setHealthy false]
      (by decide)).1 (by decide)
  · exact (nextBackend_liveness [(newBackend "c" 1).setHealthy false]
      (by decide)).2 (by decide)

/-! ## Frame of liveness transitions -/

lemma srrSetHealthy_fields (bs : Pool) (url : String) (h : Bool) (j : Nat) :
    ((srrSetHealthy bs url h).2)[j]?.map Backend.url = bs[j]?.map Backend.url ∧
    ((srrSetHealthy bs url h).2)[j]?.map Backend.weight = bs[j]?.map Backend.weight ∧
    ((srrSetHealthy bs url h).2)[j]?.map Backend.currentWeight
      = bs[j]?.map Backend.currentWeight := by
  induction bs generalizing j with
  | nil => simp [srrSetHealthy]
  | cons b rest ih =>
    by_cases hu : b.url = url
    · cases j <;> simp [srrSetHealthy, hu, Backend.setHealthy]
    · cases j with
      | zero => simp [srrSetHealthy, hu]
      | succ m => simpa [srrSetHealthy, hu] using ih m

/-- Claim C6. Frame condition on liveness transitions: `Backend.SetHealthy`
writes only the `Healthy` flag; the balancer's URL-based `SetHealthy` leaves
every backend's URL, static weight and `CurrentWeight` unchanged; and an
unhealthy backend keeps its accumulated `CurrentWeight` (indeed its whole
state) across `NextBackend` calls. -/
theorem setHealthy_frame :
    (∀ (b : Backend) (h : Bool), (b.setHealthy h).url = b.url ∧
      (b.setHealthy h).weight = b.weight ∧
      (b.setHealthy h).currentWeight = b.currentWeight) ∧
    (∀ (bs : Pool) (url : String) (h : Bool) (j : Nat),
      ((srrSetHealthy bs url h).2)[j]?.map Backend.currentWeight
        = bs[j]?.map Backend.currentWeight ∧
      ((srrSetHealthy bs url h).2)[j]?.map Backend.url = bs[j]?.map Backend.url ∧
      ((srrSetHealthy bs url h).2)[j]?.map Backend.weight = bs[j]?.map Backend.weight) ∧
    (∀ (bs : Pool) (j : Nat) (c : Backend), bs[j]? = some c → c.healthy = false →
      (nextBackend bs).2[j]? = some c) := by
  refine ⟨fun b h => ⟨rfl, rfl, rfl⟩, fun bs url h j => ?_, nextBackend_unhealthy_frame⟩
  obtain ⟨h1, h2, h3⟩ := srrSetHealthy_fields bs url h j
  exact ⟨h3, h1, h2⟩

/-- Witness for C6: flipping a backend unhealthy keeps its accumulator, and a
`NextBackend` call on a pool with that unhealthy backend leaves it untouched. -/
theorem setHealthy_frame_witness :
    (nextBackend [newBackend "a" 1, ⟨"b", 2, 5, false⟩]).2[1]? = some ⟨"b", 2, 5, false⟩ := by
  exact setHealthy_frame.2.2 [newBackend "a" 1, ⟨"b", 2, 5, false⟩] 1 ⟨"b", 2, 5, false⟩
    (by decide) (by decide)

/-! ## The implicit sum invariant -/

lemma srrSetHealthy_sumCW (bs : Pool) (url : String) (h : Bool) :
    sumCW (srrSetHealthy bs url h).2 = sumCW bs := by
  induction bs with
  | nil => rfl
  | cons b rest ih =>
    by_cases hu : b.url = url
    · simp [srrSetHealthy, hu, sumCW, Backend.setHealthy]
    · simp only [srrSetHealthy, hu, if_false, sumCW, List.map_cons, List.sum_cons]
      simp only [sumCW] at ih
      omega

/-- The balancer operations considered by the implicit invariant: adding a
fresh backend (`AddBackend` of a `NewBackend`), a liveness toggle, and a
`NextBackend` call. -/
inductive SRROp where
  | add (url : String) (weight : Int)
  | setHealthy (url : String) (h : Bool)
  | next
  deriving Repr

/-- Apply one balancer operation to the pool. -/
def applyOp (bs : Pool) : SRROp → Pool
  | .add url w => addBackend bs (newBackend url w)
  | .setHealthy url h => (srrSetHealthy bs url h).2
  | .next => (nextBackend bs).2

/-- Run a sequence of balancer operations from a pool. -/
def applyOps (bs : Pool) (ops : List SRROp) : Pool :=
  ops.foldl applyOp bs

/-- Claim C9. Implicit balancer invariant: starting from the empty balancer,
any sequence of `AddBackend`, `SetHealthy` and `NextBackend` operations keeps
the sum of the `CurrentWeight` accumulators equal to zero. -/
theorem srr_sum_current_weight_zero (ops : List SRROp) :
    sumCW (applyOps [] ops) = 0 := by
  suffices h : ∀ bs, sumCW bs = 0 → sumCW (applyOps bs ops) = 0 from h [] rfl
  induction ops with
  | nil => intro bs h; exact h
  | cons op rest ih =>
    intro bs h
    apply ih
    cases op with
    | add url w =>
      simp only [applyOp, addBackend, sumCW, List.map_append, List.sum_append]
      simp only [sumCW] at h
      simp [newBackend, h]
    | setHealthy url hh => rw [applyOp, srrSetHealthy_sumCW]; exact h
    | next => rw [applyOp, nextBackend_sumCW]; exact h

/-! ## SWRR fairness: trajectory analysis of `NextBackend` on all-healthy pools -/

lemma one_le_sumW (bs : Pool) (hne : bs ≠ []) (hw : ∀ b ∈ bs, 1 ≤ b.weight) :
    1 ≤ sumW bs := by
  obtain ⟨b, rest, rfl⟩ := List.exists_cons_of_ne_nil hne
  have h0 : ∀ x ∈ (b :: rest).map Backend.weight, 0 ≤ x := by
    intro x hx
    obtain ⟨c, hc, rfl⟩ := List.mem_map.mp hx
    exact le_trans (by omega) (hw c hc)
  have := List.single_le_sum h0 b.weight (List.mem_map.mpr ⟨b, by simp, rfl⟩)
  have hb := hw b (by simp)
  unfold sumW
  omega

lemma sum_map_add_cw_w (bs : Pool) :
    (bs.map (fun b => b.currentWeight + b.weight)).sum = sumCW bs + sumW bs := by
  induction bs with
  | nil => rfl
  | cons b rest ih =>
    simp only [sumCW, sumW, List.map_cons, List.sum_cons] at *
    omega

/-- On a nonempty all-healthy pool with positive total weight, `NextBackend`
succeeds, and the call has the canonical SWRR effect: every backend gains its
weight and the chosen one — a maximiser of the incremented accumulators —
additionally loses the total weight. -/
lemma nextBackend_step_healthy (bs : Pool) (hne : bs ≠ [])
    (hh : ∀ b ∈ bs, b.healthy = true) (hpos : 0 < sumW bs) :
    ∃ bi bb, (nextBackend bs).1 = some bi ∧ bs[bi]? = some bb ∧
      (∀ (j : Nat) (b : Backend), bs[j]? = some b →
        (nextBackend bs).2[j]? = some { b with currentWeight :=
          b.currentWeight + b.weight - (if j = bi then sumW bs else 0) }) ∧
      (∀ (j : Nat) (b : Backend), bs[j]? = some b →
        b.currentWeight + b.weight ≤ bb.currentWeight + bb.weight) := by
  have htW : (bumpAndTotal bs).2 = sumW bs := by
    rw [bumpAndTotal_snd]
    unfold sumW
    congr 1
    exact List.map_congr_left fun b hb => by simp [healthyW, Backend.isHealthy, hh b hb]
  have ht : (bumpAndTotal bs).2 ≠ 0 := by omega
  have hbumpAll : ∀ (j : Nat) (b : Backend), bs[j]? = some b →
      (bumpAndTotal bs).1[j]? = some { b with currentWeight := b.currentWeight + b.weight } := by
    intro j b hj
    rw [bumpAndTotal_fst, List.getElem?_map, hj, Option.map_some']
    have hb := hh b (List.getElem?_mem hj)
    simp [bumpB, Backend.isHealthy, hb]
  rcases nextBackend_cases bs with ⟨h0, _⟩ | ⟨ht', _, _⟩ | ⟨bi, bw, _, _, hscan, h⟩
  · exact absurd (List.length_eq_zero.mp h0) hne
  · exact absurd ht' ht
  · rcases scanBest_mem _ _ _ _ _ hscan with hacc | ⟨j0, c, hj0, hbi, _, hcw⟩
    · exact absurd hacc (by simp)
    · have hbij : bi = j0 := by omega
      subst hbij
      have hjlt : bi < (bumpAndTotal bs).1.length := by
        obtain ⟨hlen, _⟩ := List.getElem?_eq_some.mp hj0
        omega
      have hblen : bi < bs.length := by
        rwa [bumpAndTotal_fst, List.length_map] at hjlt
      obtain ⟨bb, hbb⟩ : ∃ bb, bs[bi]? = some bb :=
        ⟨bs[bi], List.getElem?_eq_getElem hblen⟩
      have hcbb : c = { bb with currentWeight := bb.currentWeight + bb.weight } := by
        have h2 := hbumpAll bi bb hbb
        rw [hj0] at h2
        exact Option.some.inj h2
      refine ⟨bi, bb, by rw [h], hbb, ?_, ?_⟩
      · intro j b hj
        rw [h]
        by_cases hjbi : j = bi
        · subst hjbi
          rw [decAt_getElem?_eq, hbumpAll j b hj, Option.map_some', htW]
          simp
        · rw [decAt_getElem?_ne _ _ _ _ hjbi, hbumpAll j b hj]
          simp [hjbi]
      · intro j b hj
        have hge := (scanBest_ge _ _ _ _ _ hscan).2 j
          { b with currentWeight := b.currentWeight + b.weight }
          (hbumpAll j b hj) (hh b (List.getElem?_mem hj))
        have hbweq : bw = bb.currentWeight + bb.weight := by
          rw [hcbb] at hcw
          exact hcw.symm
        simpa [hbweq] using hge

lemma runSteps_succ (k : Nat) (bs : Pool) :
    runSteps (k + 1) bs =
      ((runSteps k (nextBackend bs).2).1,
        (nextBackend bs).1 :: (runSteps k (nextBackend bs).2).2) := rfl

lemma runSteps_snd_length (s : Nat) (bs : Pool) : (runSteps s bs).2.length = s := by
  induction s generalizing bs with
  | zero => rfl
  | succ m ih => simp [runSteps, ih]

/-- Trajectory of `NextBackend` iterated on a nonempty all-healthy pool with
weights ≥ 1, zero accumulator sum and all accumulators above `-Σw`: every
call succeeds with an in-range index, each backend's accumulator follows the
closed form `cw + s·w - picks·Σw`, and the accumulators stay above `-Σw`. -/
lemma runSteps_traj (s : Nat) :
    ∀ (bs : Pool), bs ≠ [] →
      (∀ b ∈ bs, b.healthy = true) → (∀ b ∈ bs, 1 ≤ b.weight) →
      sumCW bs = 0 → (∀ b ∈ bs, -(sumW bs) < b.currentWeight) →
      (∀ o ∈ (runSteps s bs).2, ∃ i, i < bs.length ∧ o = some i) ∧
      (∀ (j : Nat) (b : Backend), bs[j]? = some b →
        (runSteps s bs).1[j]? = some { b with currentWeight :=
          b.currentWeight + (s : Int) * b.weight
            - ((runSteps s bs).2.count (some j) : Int) * sumW bs }) ∧
      (∀ b' ∈ (runSteps s bs).1, -(sumW bs) < b'.currentWeight) := by
  induction s with
  | zero =>
    intro bs hne hh hw hsum hlb
    refine ⟨by simp [runSteps], ?_, by simpa [runSteps] using hlb⟩
    intro j b hj
    have h0 : runSteps 0 bs = (bs, []) := rfl
    rw [h0]
    show bs[j]? = some _
    rw [hj]
    simp only [List.count_nil, Nat.cast_zero, zero_mul, add_zero, sub_zero]
  | succ s ih =>
    intro bs hne hh hw hsum hlb
    have hT1 : 1 ≤ sumW bs := one_le_sumW bs hne hw
    obtain ⟨bi, bb, hbiEq, hbb, hchar, hmax⟩ :=
      nextBackend_step_healthy bs hne hh (by omega)
    have hlen : (nextBackend bs).2.length = bs.length := nextBackend_length bs
    have hbilt : bi < bs.length := by
      obtain ⟨h1, _⟩ := List.getElem?_eq_some.mp hbb
      omega
    -- the chosen backend's incremented accumulator is at least 1
    have hMle : ∀ x ∈ bs.map (fun b => b.currentWeight + b.weight),
        x ≤ bb.currentWeight + bb.weight := by
      intro x hx
      obtain ⟨c, hc, rfl⟩ := List.mem_map.mp hx
      obtain ⟨j, hj⟩ := List.mem_iff_getElem?.mp hc
      exact hmax j c hj
    have hsumle := List.sum_le_card_nsmul _ _ hMle
    rw [sum_map_add_cw_w, hsum, List.length_map, nsmul_eq_mul] at hsumle
    have hM : 1 ≤ bb.currentWeight + bb.weight := by
      by_contra hMc
      push_neg at hMc
      have hlp : (0 : Int) < bs.length := by
        cases bs with
        | nil => exact absurd rfl hne
        | cons x xs => simp
      have hneg : (bs.length : Int) * (bb.currentWeight + bb.weight) ≤ 0 :=
        mul_nonpos_of_nonneg_of_nonpos (le_of_lt hlp) (by omega)
      linarith
    -- the pool after the step satisfies the invariant again
    have hmem' : ∀ b' ∈ (nextBackend bs).2, ∃ (j : Nat) (b : Backend), bs[j]? = some b ∧
        b' = { b with currentWeight :=
          b.currentWeight + b.weight - (if j = bi then sumW bs else 0) } := by
      intro b' hb'
      obtain ⟨j, hj⟩ := List.mem_iff_getElem?.mp hb'
      have hjlt : j < bs.length := by
        obtain ⟨h1, _⟩ := List.getElem?_eq_some.mp hj
        omega
      obtain ⟨b, hb⟩ : ∃ b, bs[j]? = some b := ⟨bs[j], List.getElem?_eq_getElem hjlt⟩
      have h2 := hchar j b hb
      rw [hj] at h2
      exact ⟨j, b, hb, Option.some.inj h2⟩
    have hne' : (nextBackend bs).2 ≠ [] := by
      intro h0
      rw [h0, List.length_nil] at hlen
      exact hne (List.length_eq_zero.mp hlen.symm)
    have hh' : ∀ b' ∈ (nextBackend bs).2, b'.healthy = true := by
      intro b' hb'
      obtain ⟨j, b, hb, rfl⟩ := hmem' b' hb'
      exact hh b (List.getElem?_mem hb)
    have hw' : ∀ b' ∈ (nextBackend bs).2, 1 ≤ b'.weight := by
      intro b' hb'
      obtain ⟨j, b, hb, rfl⟩ := hmem' b' hb'
      exact hw b (List.getElem?_mem hb)
    have hsumW' : sumW (nextBackend bs).2 = sumW bs := by
      unfold sumW
      congr 1
      apply List.ext_getElem?
      intro m
      rw [List.getElem?_map, List.getElem?_map]
      by_cases hm : m < bs.length
      · obtain ⟨b, hb⟩ : ∃ b, bs[m]? = some b := ⟨bs[m], List.getElem?_eq_getElem hm⟩
        rw [hb, hchar m b hb]
        rfl
      · rw [List.getElem?_eq_none (by omega), List.getElem?_eq_none (by omega)]
    have hsum' : sumCW (nextBackend bs).2 = 0 := by
      rw [nextBackend_sumCW]
      exact hsum
    have hlb' : ∀ b' ∈ (nextBackend bs).2, -(sumW (nextBackend bs).2) < b'.currentWeight := by
      rw [hsumW']
      intro b' hb'
      obtain ⟨j, b, hb, rfl⟩ := hmem' b' hb'
      by_cases hjbi : j = bi
      · subst hjbi
        have hbbe : b = bb := by
          rw [hb] at hbb
          exact Option.some.inj hbb
        subst hbbe
        simp only [if_pos rfl]
        omega
      · have hblb := hlb b (List.getElem?_mem hb)
        have hbw := hw b (List.getElem?_mem hb)
        simp only [if_neg hjbi]
        omega
    obtain ⟨ihp, ihf, ihlb⟩ := ih (nextBackend bs).2 hne' hh' hw' hsum' hlb'
    rw [runSteps_succ]
    refine ⟨?_, ?_, ?_⟩
    · intro o ho
      rcases List.mem_cons.mp ho with rfl | hor
      · rw [hbiEq]
        exact ⟨bi, hbilt, rfl⟩
      · obtain ⟨i, hi, rfl⟩ := ihp o hor
        exact ⟨i, by omega, rfl⟩
    · intro j b hj
      have h1 := hchar j b hj
      have h2 := ihf j _ h1
      rw [hbiEq, h2]
      have hcnt : ((some bi :: (runSteps s (nextBackend bs).2).2).count (some j) : Int)
          = ((runSteps s (nextBackend bs).2).2.count (some j) : Int)
            + (if j = bi then 1 else 0) := by
        rw [List.count_cons]
        by_cases hjbi : j = bi
        · subst hjbi
          simp
        · have : (some bi == some j) = false := by
            simp [beq_eq_false_iff_ne]
            omega
          rw [this]
          simp [hjbi]
      rw [hcnt, hsumW']
      simp only [Option.some.injEq, Backend.mk.injEq, true_and, and_true]
      push_cast
      by_cases hjbi : j = bi
      · subst hjbi
        simp only [if_pos rfl, eq_self_iff_true, if_true]
        ring_nf
      · simp only [if_neg hjbi]
        ring
    · rw [← hsumW']
      exact ihlb

lemma sum_map_split_add {α : Type} (l : List α) (f g : α → Int) :
    (l.map (fun x => f x + g x)).sum = (l.map f).sum + (l.map g).sum := by
  induction l with
  | nil => rfl
  | cons a tl ih =>
    simp only [List.map_cons, List.sum_cons, ih]
    ring

lemma sum_map_split_sub {α : Type} (l : List α) (f g : α → Int) :
    (l.map (fun x => f x - g x)).sum = (l.map f).sum - (l.map g).sum := by
  induction l with
  | nil => rfl
  | cons a tl ih =>
    simp only [List.map_cons, List.sum_cons, ih]
    ring

lemma sum_map_const_mul {α : Type} (l : List α) (c : Int) (f : α → Int) :
    (l.map (fun x => c * f x)).sum = c * (l.map f).sum := by
  induction l with
  | nil => simp
  | cons a tl ih =>
    simp only [List.map_cons, List.sum_cons, ih]
    ring

lemma sum_range_ite_one (n i : Nat) :
    ((List.range n).map (fun j => if i = j then (1 : Int) else 0)).sum
      = if i < n then 1 else 0 := by
  induction n with
  | zero => simp
  | succ m ih =>
    rw [List.range_succ, List.map_append, List.sum_append, ih]
    by_cases h1 : i = m
    · subst h1
      simp
    · by_cases h2 : i < m
      · have : i < m + 1 := by omega
        simp [h1, h2, this]
      · have : ¬ i < m + 1 := by omega
        simp [h1, h2, this]

lemma count_range_sum (n : Nat) (l : List (Option Nat))
    (hl : ∀ o ∈ l, ∃ i, i < n ∧ o = some i) :
    ((List.range n).map (fun j => (l.count (some j) : Int))).sum = l.length := by
  induction l with
  | nil => simp
  | cons o tl ih =>
    obtain ⟨i, hi, rfl⟩ := hl o (by simp)
    have htl : ∀ o ∈ tl, ∃ i, i < n ∧ o = some i := fun o ho => hl o (by simp [ho])
    have hstep : ((List.range n).map (fun j => ((some i :: tl).count (some j) : Int)))
        = (List.range n).map (fun j => (tl.count (some j) : Int) + (if i = j then 1 else 0)) := by
      apply List.map_congr_left
      intro j hj
      rw [List.count_cons]
      by_cases hij : i = j
      · subst hij
        simp
      · have : (some i == some j) = false := by
          simp [beq_eq_false_iff_ne]
          omega
        rw [this]
        simp [hij]
    rw [hstep, sum_map_split_add, ih htl, sum_range_ite_one]
    simp [hi]

lemma sum_map_range_getD {α : Type} (l : List α) (d : α) (f : α → Int) :
    ((List.range l.length).map (fun j => f (l.getD j d))).sum = (l.map f).sum := by
  induction l with
  | nil => simp
  | cons a tl ih =>
    rw [List.length_cons, List.range_succ_eq_map, List.map_cons, List.map_map,
      List.sum_cons]
    have hcomp : (List.range tl.length).map ((fun j => f ((a :: tl).getD j d)) ∘ Nat.succ)
        = (List.range tl.length).map (fun j => f (tl.getD j d)) :=
      List.map_congr_left fun j _ => rfl
    rw [hcomp, ih]
    rfl

lemma eq_zero_of_sum_zero_of_nonneg (l : List Int) (h0 : ∀ x ∈ l, 0 ≤ x)
    (hs : l.sum = 0) : ∀ x ∈ l, x = 0 := by
  induction l with
  | nil => simp
  | cons a tl ih =>
    have ha : 0 ≤ a := h0 a (by simp)
    have htl : ∀ x ∈ tl, 0 ≤ x := fun x hx => h0 x (by simp [hx])
    have hts : 0 ≤ tl.sum := List.sum_nonneg htl
    simp only [List.sum_cons] at hs
    intro x hx
    rcases List.mem_cons.mp hx with rfl | hx'
    · omega
    · exact ih htl (by omega) x hx'

/-- Claim C1. SWRR fairness: on a pool of backends with positive weights, all
healthy and starting from `CurrentWeight = 0`, the `k · Σw` consecutive
`NextBackend` calls return the backend at index `j` exactly `k · w_j`
times. -/
theorem swrr_fairness (bs : Pool)
    (hh : ∀ b ∈ bs, b.healthy = true) (hw : ∀ b ∈ bs, 0 < b.weight)
    (hcw : ∀ b ∈ bs, b.currentWeight = 0) (k : Nat)
    (j : Nat) (b : Backend) (hj : bs[j]? = some b) :
    ((runSteps (k * (sumW bs).toNat) bs).2.count (some j) : Int) = k * b.weight := by
  have hw1 : ∀ b ∈ bs, 1 ≤ b.weight := fun b hb => hw b hb
  have hne : bs ≠ [] := by
    intro h
    rw [h] at hj
    simp at hj
  have hT1 : 1 ≤ sumW bs := one_le_sumW bs hne hw1
  have hsum0 : sumCW bs = 0 := by
    apply List.sum_eq_zero
    intro x hx
    obtain ⟨c, hc, rfl⟩ := List.mem_map.mp hx
    exact hcw c hc
  have hlb0 : ∀ b ∈ bs, -(sumW bs) < b.currentWeight := by
    intro c hc
    rw [hcw c hc]
    omega
  have hsInt : ((k * (sumW bs).toNat : Nat) : Int) = k * sumW bs := by
    push_cast
    rw [Int.toNat_of_nonneg (by omega)]
  obtain ⟨hp, hf, hbnd⟩ := runSteps_traj (k * (sumW bs).toNat) bs hne hh hw1 hsum0 hlb0
  have hplen : (runSteps (k * (sumW bs).toNat) bs).2.length = k * (sumW bs).toNat :=
    runSteps_snd_length _ bs
  -- pointwise upper bound on the pick counts
  have hpt : ∀ (j' : Nat) (c : Backend), bs[j']? = some c →
      ((runSteps (k * (sumW bs).toNat) bs).2.count (some j') : Int) ≤ k * c.weight := by
    intro j' c hc
    have hfj := hf j' c hc
    have hb' := hbnd _ (List.getElem?_mem hfj)
    rw [hcw c (List.getElem?_mem hc)] at hb'
    simp only at hb'
    rw [hsInt] at hb'
    set p : Int := ((runSteps (k * (sumW bs).toNat) bs).2.count (some j') : Int) with hp'
    have h3 : (0:Int) + (k * sumW bs) * c.weight - p * sumW bs
        = sumW bs * ((k : Int) * c.weight - p) := by ring
    rw [h3] at hb'
    by_contra hcon
    push_neg at hcon
    have h4 : (k : Int) * c.weight - p ≤ -1 := by omega
    have h5 : sumW bs * ((k : Int) * c.weight - p) ≤ sumW bs * (-1) :=
      mul_le_mul_of_nonneg_left h4 (by omega)
    linarith
  -- the pick counts over all indices sum to the number of calls
  have hjlt : j < bs.length := by
    obtain ⟨h1, _⟩ := List.getElem?_eq_some.mp hj
    omega
  have hA0 : ∀ x ∈ (List.range bs.length).map (fun j' =>
      (k : Int) * (bs.getD j' (newBackend "" 0)).weight
        - ((runSteps (k * (sumW bs).toNat) bs).2.count (some j') : Int)), 0 ≤ x := by
    intro x hx
    obtain ⟨j', hj', rfl⟩ := List.mem_map.mp hx
    have hj'n : j' < bs.length := List.mem_range.mp hj'
    have hc : bs[j']? = some (bs.getD j' (newBackend "" 0)) := by
      rw [List.getD_eq_getElem _ _ hj'n]
      exact List.getElem?_eq_getElem hj'n
    have := hpt j' _ hc
    omega
  have hAsum : ((List.range bs.length).map (fun j' =>
      (k : Int) * (bs.getD j' (newBackend "" 0)).weight
        - ((runSteps (k * (sumW bs).toNat) bs).2.count (some j') : Int))).sum = 0 := by
    rw [sum_map_split_sub, sum_map_const_mul, sum_map_range_getD bs (newBackend "" 0)
      Backend.weight]
    have h2 := count_range_sum bs.length (runSteps (k * (sumW bs).toNat) bs).2 hp
    rw [h2, hplen]
    unfold sumW at hsInt ⊢
    omega
  have hjA : (k : Int) * (bs.getD j (newBackend "" 0)).weight
      - ((runSteps (k * (sumW bs).toNat) bs).2.count (some j) : Int) ∈
      (List.range bs.length).map (fun j' =>
        (k : Int) * (bs.getD j' (newBackend "" 0)).weight
          - ((runSteps (k * (sumW bs).toNat) bs).2.count (some j') : Int)) :=
    List.mem_map.mpr ⟨j, List.mem_range.mpr hjlt, rfl⟩
  have hz := eq_zero_of_sum_zero_of_nonneg _ hA0 hAsum _ hjA
  have hgd : bs.getD j (newBackend "" 0) = b := by
    rw [List.getD_eq_getElem _ _ hjlt]
    have := List.getElem?_eq_getElem (l := bs) hjlt
    rw [hj] at this
    exact (Option.some.inj this).symm
  rw [hgd] at hz
  omega

/-- The concrete pool of scenario S1: backends `A:1, B:2, C:3`. -/
def demoPool : Pool := [newBackend "A" 1, newBackend "B" 2, newBackend "C" 3]

/-- Witness for C1: with weights `A:1, B:2, C:3` (all healthy), 60 calls
return A exactly 10, B exactly 20 and C exactly 30 times. -/
theorem swrr_fairness_witness :
    ((runSteps 60 demoPool).2.count (some 0) : Int) = 10 ∧
    ((runSteps 60 demoPool).2.count (some 1) : Int) = 20 ∧
    ((runSteps 60 demoPool).2.count (some 2) : Int) = 30 := by
  have h6 : 10 * (sumW demoPool).toNat = 60 := by decide
  refine ⟨?_, ?_, ?_⟩
  · have h := swrr_fairness demoPool (by decide) (by decide) (by decide) 10 0
      (newBackend "A" 1) (by decide)
    rw [h6] at h
    simpa [newBackend] using h
  · have h := swrr_fairness demoPool (by decide) (by decide) (by decide) 10 1
      (newBackend "B" 2) (by decide)
    rw [h6] at h
    simpa [newBackend] using h
  · have h := swrr_fairness demoPool (by decide) (by decide) (by decide) 10 2
      (newBackend "C" 3) (by decide)
    rw [h6] at h
    simpa [newBackend] using h

/-! ## Health checker: `pkg/health/checker.go`

The checker keeps, per backend URL, a failure counter (`failures` map,
missing entries read as `0` and the counter only ever becomes `0` or is
incremented, so it is a `Nat`) and a `lastCheck` timestamp, next to the
backend's own `Healthy` flag.  The three are gathered in one record and the
probe handlers are modelled as functions on it, with the clock passed in. -/

/-- Per-backend checker state: the backend's `Healthy` flag, its entry in the
`failures` map and its entry in the `lastCheck` map. -/
structure ProbeState where
  healthy : Bool
  failures : Nat
  lastCheck : Int
  deriving Repr, DecidableEq

/-- Mirror of `Checker.handleFailure`: increment the counter; once it reaches
`failureThreshold`, a healthy backend is marked unhealthy. -/
def handleFailure (threshold : Nat) (s : ProbeState) : ProbeState :=
  let f := s.failures + 1
  if threshold ≤ f then
    if s.healthy then { s with failures := f, healthy := false }
    else { s with failures := f }
  else
    { s with failures := f }

/-- Mirror of `Checker.handleSuccess`: reset a positive counter and mark an unhealthy
backend healthy again. -/
def handleSuccess (s : ProbeState) : ProbeState :=
  let s1 := if s.failures > 0 then { s with failures := 0 } else s
  if s1.healthy = false then { s1 with healthy := true } else s1

/-- Outcome of one executed probe of `Checker.checkBackend`: either the
request could not be built/sent (network error), or a response with some
status code arrived. -/
inductive ProbeResult where
  | netError
  | status (code : Nat)
  deriving Repr, DecidableEq

/-- The probe-handling tail of `Checker.checkBackend` (after the recovery
gate): on a network or request-construction error it calls `handleFailure`
directly — without touching `lastCheck`; when a response arrives it first
sets `lastCheck := now` and then dispatches on `StatusCode == 200`. -/
def checkProbe (threshold : Nat) (now : Int) (res : ProbeResult)
    (s : ProbeState) : ProbeState :=
  match res with
  | .netError => handleFailure threshold s
  | .status code =>
    let s1 := { s with lastCheck := now }
    if code = 200 then handleSuccess s1 else handleFailure threshold s1

/-- A probe outcome as the state machine sees it: failure (network error or
status ≠ 200) or success (status 200). -/
inductive ProbeEvent where
  | fail
  | success
  deriving Repr, DecidableEq

/-- One transition of the per-backend state machine. -/
def probeStep (threshold : Nat) (s : ProbeState) : ProbeEvent → ProbeState
  | .fail => handleFailure threshold s
  | .success => handleSuccess s

/-- Run the state machine over a sequence of probe outcomes. -/
def runProbes (threshold : Nat) (s : ProbeState) (es : List ProbeEvent) : ProbeState :=
  es.foldl (probeStep threshold) s

/-- Number of leading consecutive failures. -/
def leadingFails : List ProbeEvent → Nat
  | ProbeEvent.fail :: rest => leadingFails rest + 1
  | _ => 0

/-- Number of trailing consecutive failures of a probe sequence. -/
def trailingFails (es : List ProbeEvent) : Nat :=
  leadingFails es.reverse

lemma trailingFails_append_fail (es : List ProbeEvent) :
    trailingFails (es ++ [ProbeEvent.fail]) = trailingFails es + 1 := by
  unfold trailingFails
  rw [List.reverse_append]
  rfl

lemma trailingFails_append_success (es : List ProbeEvent) :
    trailingFails (es ++ [ProbeEvent.success]) = 0 := by
  unfold trailingFails
  rw [List.reverse_append]
  rfl

lemma runProbes_append (threshold : Nat) (s : ProbeState) (es : List ProbeEvent)
    (e : ProbeEvent) :
    runProbes threshold s (es ++ [e]) = probeStep threshold (runProbes threshold s es) e := by
  unfold runProbes
  rw [List.foldl_append]
  rfl

lemma handleFailure_failures (threshold : Nat) (s : ProbeState) :
    (handleFailure threshold s).failures = s.failures + 1 := by
  simp only [handleFailure]
  split
  · split <;> rfl
  · rfl

lemma handleFailure_lastCheck (threshold : Nat) (s : ProbeState) :
    (handleFailure threshold s).lastCheck = s.lastCheck := by
  simp only [handleFailure]
  split
  · split <;> rfl
  · rfl

lemma handleFailure_healthy_iff (threshold : Nat) (s : ProbeState) :
    ((handleFailure threshold s).healthy = false) ↔
      (s.healthy = false ∨ threshold ≤ s.failures + 1) := by
  simp only [handleFailure]
  by_cases hth : threshold ≤ s.failures + 1
  · rw [if_pos hth]
    by_cases hh : s.healthy
    · rw [if_pos hh]
      simp [hth]
    · rw [if_neg hh]
      simp only []
      exact ⟨fun _ => Or.inr hth, fun _ => by simpa using hh⟩
  · rw [if_neg hth]
    simp only []
    constructor
    · exact fun h => Or.inl h
    · rintro (h | h)
      · exact h
      · exact absurd h hth

lemma handleSuccess_failures (s : ProbeState) : (handleSuccess s).failures = 0 := by
  simp only [handleSuccess]
  by_cases h1 : s.failures > 0
  · rw [if_pos h1]
    split <;> rfl
  · rw [if_neg h1]
    split
    · show s.failures = 0
      omega
    · omega

lemma handleSuccess_healthy (s : ProbeState) : (handleSuccess s).healthy = true := by
  simp only [handleSuccess]
  by_cases h1 : s.failures > 0
  · rw [if_pos h1]
    split <;> simp_all
  · rw [if_neg h1]
    split <;> simp_all

lemma handleSuccess_lastCheck (s : ProbeState) :
    (handleSuccess s).lastCheck = s.lastCheck := by
  simp only [handleSuccess]
  by_cases h1 : s.failures > 0
  · rw [if_pos h1]
    split <;> rfl
  · rw [if_neg h1]
    split <;> rfl

/-- Invariant of the probe trace from a fresh healthy state: the failure
counter never exceeds the trailing failure run, and unhealthiness requires a
trailing failure run of at least `threshold`. -/
lemma runProbes_invariant (threshold : Nat) (c0 : Int) (es : List ProbeEvent) :
    (runProbes threshold ⟨true, 0, c0⟩ es).failures ≤ trailingFails es ∧
      ((runProbes threshold ⟨true, 0, c0⟩ es).healthy = false →
        threshold ≤ trailingFails es) := by
  induction es using List.reverseRecOn with
  | nil => exact ⟨Nat.le_refl 0, by intro h; simp [runProbes] at h⟩
  | append_singleton es e ih =>
    obtain ⟨ihf, ihh⟩ := ih
    rw [runProbes_append]
    cases e with
    | fail =>
      rw [trailingFails_append_fail]
      simp only [probeStep]
      constructor
      · rw [handleFailure_failures]
        omega
      · intro hunh
        rcases (handleFailure_healthy_iff _ _).mp hunh with hh | hth
        · exact Nat.le_succ_of_le (ihh hh)
        · omega
    | success =>
      rw [trailingFails_append_success]
      simp only [probeStep]
      refine ⟨by rw [handleSuccess_failures], ?_⟩
      intro hunh
      rw [handleSuccess_healthy] at hunh
      exact absurd hunh (by simp)

/-- Claim C3. Health-checker state machine: a failed probe increments the
counter; the backend is set unhealthy exactly when it was healthy and the
incremented counter has reached `failureThreshold`; a successful probe
resets the counter to zero and leaves the backend healthy (recovering it if
it was unhealthy); hence, from the initial healthy state, a backend is
unhealthy only after at least `failureThreshold` trailing consecutive
failed probes. -/
theorem health_state_machine (threshold : Nat) (s : ProbeState) (c0 : Int)
    (es : List ProbeEvent) :
    ((handleFailure threshold s).failures = s.failures + 1) ∧
    ((s.healthy = true ∧ (handleFailure threshold s).healthy = false) ↔
      (s.healthy = true ∧ threshold ≤ s.failures + 1)) ∧
    ((handleSuccess s).failures = 0 ∧ (handleSuccess s).healthy = true) ∧
    ((runProbes threshold ⟨true, 0, c0⟩ es).healthy = false →
      threshold ≤ trailingFails es) := by
  refine ⟨handleFailure_failures threshold s, ?_,
    ⟨handleSuccess_failures s, handleSuccess_healthy s⟩,
    (runProbes_invariant threshold c0 es).2⟩
  constructor
  · rintro ⟨hh, hf⟩
    rcases (handleFailure_healthy_iff _ _).mp hf with h | h
    · rw [hh] at h
      exact absurd h (by simp)
    · exact ⟨hh, h⟩
  · rintro ⟨hh, hth⟩
    exact ⟨hh, (handleFailure_healthy_iff _ _).mpr (Or.inr hth)⟩

/-- Witness for C3: with `failureThreshold = 3`, three consecutive failed
probes from the fresh state leave the backend unhealthy, and the theorem
yields the three-failure lower bound. -/
theorem health_state_machine_witness :
    (runProbes 3 ⟨true, 0, 0⟩ [ProbeEvent.fail, ProbeEvent.fail, ProbeEvent.fail]).healthy
        = false ∧
      3 ≤ trailingFails [ProbeEvent.fail, ProbeEvent.fail, ProbeEvent.fail] :=
  ⟨by decide, (health_state_machine 3 ⟨true, 2, 0⟩ 0
    [ProbeEvent.fail, ProbeEvent.fail, ProbeEvent.fail]).2.2.2 (by decide)⟩

/-- Claim C5, amended. `checkBackend` updates `lastCheck` to the current time
exactly on the probes that received an HTTP response (status 200 or not); a
probe failing with a network or request-construction error leaves
`lastCheck` unchanged. -/
theorem checkBackend_lastcheck (threshold : Nat) (now : Int) (code : Nat)
    (s : ProbeState) :
    (checkProbe threshold now (.status code) s).lastCheck = now ∧
    (checkProbe threshold now .netError s).lastCheck = s.lastCheck := by
  constructor
  · simp only [checkProbe]
    by_cases h : code = 200
    · rw [if_pos h, handleSuccess_lastCheck]
    · rw [if_neg h, handleFailure_lastCheck]
  · simp only [checkProbe]
    exact handleFailure_lastCheck threshold s

/-- Witness for C5 (amended): a 200 response at time 9 sets `lastCheck` to 9
while a network error at time 9 leaves it at 5. -/
theorem checkBackend_lastcheck_witness :
    (checkProbe 3 9 (.status 200) ⟨true, 1, 0⟩).lastCheck = 9 ∧
    (checkProbe 3 9 .netError ⟨true, 1, 5⟩).lastCheck = 5 :=
  ⟨(checkBackend_lastcheck 3 9 200 ⟨true, 1, 0⟩).1,
   (checkBackend_lastcheck 3 9 200 ⟨true, 1, 5⟩).2⟩

/-- Counterexample to C5 as stated: a probe attempt that fails with a network
error at time 7 leaves `lastCheck` at its old value 0 instead of setting it
to the current time. -/
theorem checkBackend_lastcheck_counterexample :
    (checkProbe 3 7 .netError ⟨true, 0, 0⟩).lastCheck = 0 ∧ (0 : Int) ≠ 7 := by
  decide

/-! ## Cache: `pkg/cache/entry.go` and the in-memory store

Timestamps are integers handed to every operation (the injectable clock);
the response body is a byte list and the header a list of key/value pairs.
The Go `map[string]*Entry` is an association list with unique keys, written
through `assocSet` (assignment) and read through `List.lookup`. -/

/-- Go map assignment `m[k] = v`: replace the existing binding or add one. -/
def assocSet {β : Type} : List (String × β) → String → β → List (String × β)
  | [], k, v => [(k, v)]
  | (k', v') :: rest, k, v =>
    if k' = k then (k, v) :: rest else (k', v') :: assocSet rest k v

/-- Mirror of `cache.Entry`. -/
structure Entry where
  key : String
  value : List Nat
  header : List (String × String)
  expiresAt : Int
  createdAt : Int
  deriving Repr, DecidableEq

/-- Mirror of `cache.NewEntry` with the clock at `now`: `ExpiresAt = now + ttl`. -/
def newEntry (key : String) (value : List Nat) (header : List (String × String))
    (ttl : Int) (now : Int) : Entry :=
  { key := key, value := value, header := header, createdAt := now,
    expiresAt := now + ttl }

/-- Mirror of `Entry.IsExpired` with the clock at `now`:
`time.Now().After(e.ExpiresAt)`, i.e. strictly after the expiry instant. -/
def Entry.isExpired (e : Entry) (now : Int) : Bool :=
  decide (e.expiresAt < now)

/-- Mirror of `cache.Cache`: the entry map and the configured TTL. -/
structure Cache where
  entries : List (String × Entry)
  ttl : Int
  deriving Repr, DecidableEq

/-- Mirror of `cache.NewCache`. -/
def newCache (ttl : Int) : Cache :=
  { entries := [], ttl := ttl }

/-- Mirror of `Cache.Get` with the clock at `now`: a hit requires the entry to exist
and not be expired. -/
def Cache.get (c : Cache) (now : Int) (key : String) :
    Option (List Nat × List (String × String)) :=
  match c.entries.lookup key with
  | none => none
  | some e => if e.isExpired now then none else some (e.value, e.header)

/-- Mirror of `Cache.Set` with the clock at `now`: overwrite the binding with a fresh
entry. -/
def Cache.set (c : Cache) (now : Int) (key : String) (value : List Nat)
    (header : List (String × String)) : Cache :=
  { c with entries := assocSet c.entries key (newEntry key value header c.ttl now) }

/-- The loop of `Cache.CleanupExpired`: delete every entry with
`now.After(entry.ExpiresAt)` while counting the deletions. -/
def cleanupPass : List (String × Entry) → Int → Nat × List (String × Entry)
  | [], _ => (0, [])
  | (k, e) :: rest, now =>
    let r := cleanupPass rest now
    if e.isExpired now then (r.1 + 1, r.2) else (r.1, (k, e) :: r.2)

/-- Mirror of `Cache.CleanupExpired` with the clock at `now`. -/
def Cache.cleanupExpired (c : Cache) (now : Int) : Nat × Cache :=
  ((cleanupPass c.entries now).1, { c with entries := (cleanupPass c.entries now).2 })

/-- Mirror of `Cache.Size`. -/
def Cache.size (c : Cache) : Nat :=
  c.entries.length

lemma assocSet_lookup_self {β : Type} (l : List (String × β)) (k : String) (v : β) :
    (assocSet l k v).lookup k = some v := by
  induction l with
  | nil => simp [assocSet]
  | cons p rest ih =>
    obtain ⟨k', v'⟩ := p
    by_cases h : k' = k
    · simp [assocSet, h]
    · have hbeq : (k == k') = false := by
        simp only [beq_eq_false_iff_ne]
        exact fun he => h he.symm
      simp [assocSet, h, List.lookup, hbeq, ih]

lemma assocSet_lookup_other {β : Type} (l : List (String × β)) (k k' : String)
    (v : β) (hne : k' ≠ k) : (assocSet l k v).lookup k' = l.lookup k' := by
  have hbeq : (k' == k) = false := by
    simp only [beq_eq_false_iff_ne]
    exact hne
  induction l with
  | nil => simp [assocSet, List.lookup, hbeq]
  | cons p rest ih =>
    obtain ⟨k0, v0⟩ := p
    by_cases h : k0 = k
    · subst h
      simp [assocSet, List.lookup, hbeq]
    · simp [assocSet, h, List.lookup, ih]

/-- Claim C4, amended. Cache TTL boundary as implemented: after `Set` at time
`t0` the entry expires at `t0 + ttl`; `Get` returns the stored pair iff
`now ≤ t0 + ttl` and misses whenever `now > t0 + ttl` — at the exact expiry
instant the entry is still returned; keys without an entry always miss. -/
theorem cache_ttl_boundary (c : Cache) (t0 now : Int) (key : String)
    (v : List Nat) (hd : List (String × String)) :
    (now ≤ t0 + c.ttl → (c.set t0 key v hd).get now key = some (v, hd)) ∧
    (t0 + c.ttl < now → (c.set t0 key v hd).get now key = none) ∧
    (∀ k', (c.set t0 key v hd).entries.lookup k' = none →
      (c.set t0 key v hd).get now k' = none) := by
  have hl : (c.set t0 key v hd).entries.lookup key
      = some (newEntry key v hd c.ttl t0) := assocSet_lookup_self _ _ _
  refine ⟨?_, ?_, ?_⟩
  · intro hle
    simp only [Cache.get, hl]
    have : (newEntry key v hd c.ttl t0).isExpired now = false := by
      simp only [Entry.isExpired, newEntry, decide_eq_false_iff_not]
      omega
    rw [this]
    rfl
  · intro hlt
    simp only [Cache.get, hl]
    have : (newEntry key v hd c.ttl t0).isExpired now = true := by
      simp only [Entry.isExpired, newEntry, decide_eq_true_eq]
      omega
    rw [this]
    rfl
  · intro k' hk'
    simp only [Cache.get, hk']

/-- Witness for C4 (amended): with TTL 5 and a `Set` at time 0, `Get` at
time 5 still hits and `Get` at time 6 misses. -/
theorem cache_ttl_boundary_witness :
    ((newCache 5).set 0 "k" [1] []).get 5 "k" = some ([1], []) ∧
    ((newCache 5).set 0 "k" [1] []).get 6 "k" = none :=
  ⟨(cache_ttl_boundary (newCache 5) 0 5 "k" [1] []).1 (by decide),
   (cache_ttl_boundary (newCache 5) 0 6 "k" [1] []).2.1 (by decide)⟩

/-- Counterexample to C4 as stated: the entry stored at time 0 with TTL 5 has
`created_at + ttl = 5`, yet `Get` at time `now = 5 ≥ created_at + ttl`
returns it instead of missing (`IsExpired` uses strict `After`). -/
theorem cache_ttl_counterexample :
    ((newCache 5).set 0 "k" [1] []).get 5 "k" = some ([1], []) ∧
    (((newCache 5).set 0 "k" [1] []).entries.lookup "k").map
        (fun e => e.createdAt + 5) = some 5 ∧
    ¬ ((5 : Int) < 0 + 5) := by
  decide

/-- Claim C7. `CleanupExpired` removes exactly the entries whose expiry
instant has passed (`now.After(ExpiresAt)`), returns exactly the number of
removed entries, keeps the others untouched, and leaves no expired entry
behind. -/
theorem cleanup_expired_spec (c : Cache) (now : Int) :
    ((c.cleanupExpired now).2.entries
      = c.entries.filter (fun p => !(p.2.isExpired now))) ∧
    ((c.cleanupExpired now).1
      = (c.entries.filter (fun p => p.2.isExpired now)).length) ∧
    (∀ p ∈ (c.cleanupExpired now).2.entries, p.2.isExpired now = false) ∧
    ((c.cleanupExpired now).1 + (c.cleanupExpired now).2.size = c.size) := by
  have hpass : ∀ l : List (String × Entry),
      (cleanupPass l now).2 = l.filter (fun p => !(p.2.isExpired now)) ∧
      (cleanupPass l now).1 = (l.filter (fun p => p.2.isExpired now)).length := by
    intro l
    induction l with
    | nil => exact ⟨rfl, rfl⟩
    | cons p rest ih =>
      obtain ⟨k, e⟩ := p
      obtain ⟨ih1, ih2⟩ := ih
      by_cases he : e.isExpired now
      · simp [cleanupPass, he, List.filter, ih1, ih2]
      · simp [cleanupPass, he, List.filter, ih1, ih2]
  obtain ⟨h1, h2⟩ := hpass c.entries
  refine ⟨h1, h2, ?_, ?_⟩
  · intro p hp
    rw [show (c.cleanupExpired now).2.entries = (cleanupPass c.entries now).2 from rfl,
      h1] at hp
    have := List.of_mem_filter hp
    simpa using this
  · show (cleanupPass c.entries now).1 + (cleanupPass c.entries now).2.length
      = c.entries.length
    rw [h1, h2]
    induction c.entries with
    | nil => rfl
    | cons p rest ih =>
      by_cases he : p.2.isExpired now
      · simp [List.filter, he]
        omega
      · simp [List.filter, he]
        omega

/-- A cache with TTL 5 holding one entry expiring at 5 and one at 15. -/
def demoCache : Cache :=
  ((newCache 5).set 0 "a" [1] []).set 10 "b" [2] []

/-- Witness for C7: at time 7 the pass removes the one expired entry of
`demoCache` and keeps the other. -/
theorem cleanup_expired_spec_witness :
    (demoCache.cleanupExpired 7).1 = 1 ∧ (demoCache.cleanupExpired 7).2.size = 1 := by
  have h := cleanup_expired_spec demoCache 7
  constructor
  · rw [h.2.1]
    decide
  · show (demoCache.cleanupExpired 7).2.entries.length = 1
    rw [h.1]
    decide

/-! ## Rate limiter: `pkg/ratelimit`

Timestamps and token counts are rationals (the injectable clock; the Go
float64 rate `rpm/60.0` is modelled exactly).  The per-client bucket of
`golang.org/x/time/rate` is an external dependency, modelled from the
spec's token-bucket contract. -/

/-- Modelled from the spec: the token bucket of `golang.org/x/time/rate`
(`rate.Limiter`, not part of this repository).  Per §4.4 of the spec it has
capacity `burst`, refills continuously at `limit` tokens per second, and a
fresh bucket starts full. -/
structure TokenBucket where
  limit : ℚ
  burst : Nat
  tokens : ℚ
  lastUpdate : ℚ
  deriving Repr, DecidableEq

/-- Modelled from the spec: `rate.NewLimiter` at creation time `now` — the
bucket starts full at `burst` tokens. -/
def rateNewLimiter (limit : ℚ) (burst : Nat) (now : ℚ) : TokenBucket :=
  { limit := limit, burst := burst, tokens := burst, lastUpdate := now }

/-- Modelled from the spec: `rate.Limiter.Allow` at time `now` — advance the
bucket (`tokens + limit·Δt`, capped at `burst`), then consume one token and
permit iff at least one token is available. -/
def TokenBucket.allow (b : TokenBucket) (now : ℚ) : Bool × TokenBucket :=
  let t := min (b.burst : ℚ) (b.tokens + b.limit * (now - b.lastUpdate))
  if 1 ≤ t then (true, { b with tokens := t - 1, lastUpdate := now })
  else (false, { b with tokens := t, lastUpdate := now })

/-- Mirror of `ratelimit.clientLimiter`: the bucket plus the `lastSeen` timestamp. -/
structure ClientLimiter where
  bucket : TokenBucket
  lastSeen : ℚ
  deriving Repr, DecidableEq

/-- Mirror of `ratelimit.Limiter`: per-IP buckets, the per-second rate (`rpm/60`) and
the burst capacity. -/
structure Limiter where
  limiters : List (String × ClientLimiter)
  limit : ℚ
  burst : Nat
  deriving Repr, DecidableEq

/-- Mirror of `ratelimit.NewLimiter`. -/
def newLimiter (requestsPerMinute : Nat) (burst : Nat) : Limiter :=
  { limiters := [], limit := (requestsPerMinute : ℚ) / 60, burst := burst }

/-- Go map assignment for the limiter map. -/
def assocSetCL : List (String × ClientLimiter) → String → ClientLimiter →
    List (String × ClientLimiter)
  | [], k, v => [(k, v)]
  | (k', v') :: rest, k, v =>
    if k' = k then (k, v) :: rest else (k', v') :: assocSetCL rest k v

/-- Mirror of `Limiter.createNewLimiter` at time `now`: double-checked lookup, then a
fresh full bucket with `lastSeen = now`, inserted before its first `Allow`. -/
def Limiter.createNewLimiter (l : Limiter) (now : ℚ) (ip : String) : Bool × Limiter :=
  match l.limiters.lookup ip with
  | some cl =>
    let r := cl.bucket.allow now
    (r.1, { l with limiters := assocSetCL l.limiters ip ⟨r.2, now⟩ })
  | none =>
    let fresh := rateNewLimiter l.limit l.burst now
    let r := fresh.allow now
    (r.1, { l with limiters := assocSetCL l.limiters ip ⟨r.2, now⟩ })

/-- Mirror of `Limiter.Allow` at time `now`: look the client up, creating the bucket on
first sight; otherwise refresh `lastSeen` and consult the bucket. -/
def Limiter.allow (l : Limiter) (now : ℚ) (ip : String) : Bool × Limiter :=
  match l.limiters.lookup ip with
  | none => l.createNewLimiter now ip
  | some cl =>
    let r := cl.bucket.allow now
    (r.1, { l with limiters := assocSetCL l.limiters ip ⟨r.2, now⟩ })

/-- The loop of `Limiter.CleanupStale`: delete every bucket with
`now − lastSeen > idleTimeout` while counting the deletions. -/
def stalePass : List (String × ClientLimiter) → ℚ → ℚ → Nat × List (String × ClientLimiter)
  | [], _, _ => (0, [])
  | (ip, cl) :: rest, now, idle =>
    let r := stalePass rest now idle
    if idle < now - cl.lastSeen then (r.1 + 1, r.2) else (r.1, (ip, cl) :: r.2)

/-- Mirror of `Limiter.CleanupStale` at time `now`. -/
def Limiter.cleanupStale (l : Limiter) (now idleTimeout : ℚ) : Nat × Limiter :=
  ((stalePass l.limiters now idleTimeout).1,
   { l with limiters := (stalePass l.limiters now idleTimeout).2 })

/-- Mirror of `Limiter.Size`. -/
def Limiter.size (l : Limiter) : Nat :=
  l.limiters.length

/-- Claim C8. `CleanupStale(idleTimeout)` removes exactly the buckets with
`now − lastSeen > idleTimeout` and returns their number, leaving the other
buckets in place; in particular, when every bucket is idle beyond the
timeout, it returns the previous size and `Size` then returns 0. -/
theorem cleanup_stale_spec (l : Limiter) (now idle : ℚ) :
    ((l.cleanupStale now idle).2.limiters
      = l.limiters.filter (fun p => decide (now - p.2.lastSeen ≤ idle))) ∧
    ((l.cleanupStale now idle).1
      = (l.limiters.filter (fun p => decide (idle < now - p.2.lastSeen))).length) ∧
    ((l.cleanupStale now idle).1 + (l.cleanupStale now idle).2.size = l.size) ∧
    ((∀ p ∈ l.limiters, idle < now - p.2.lastSeen) →
      (l.cleanupStale now idle).1 = l.size ∧ (l.cleanupStale now idle).2.size = 0) := by
  have hnot : ∀ p : String × ClientLimiter,
      (decide (now - p.2.lastSeen ≤ idle)) = !(decide (idle < now - p.2.lastSeen)) := by
    intro p
    rw [← decide_not, decide_eq_decide]
    exact not_lt.symm
  have hpass : ∀ m : List (String × ClientLimiter),
      (stalePass m now idle).2 = m.filter (fun p => decide (now - p.2.lastSeen ≤ idle)) ∧
      (stalePass m now idle).1
        = (m.filter (fun p => decide (idle < now - p.2.lastSeen))).length := by
    intro m
    induction m with
    | nil => exact ⟨rfl, rfl⟩
    | cons p rest ih =>
      obtain ⟨ip, cl⟩ := p
      obtain ⟨ih1, ih2⟩ := ih
      by_cases hs : idle < now - cl.lastSeen
      · have hk : ¬ (now - cl.lastSeen ≤ idle) := not_le.mpr hs
        simp [stalePass, hs, hk, List.filter, ih1, ih2]
      · have hk : now - cl.lastSeen ≤ idle := not_lt.mp hs
        simp [stalePass, hs, hk, List.filter, ih1, ih2]
  have hsplit : ∀ m : List (String × ClientLimiter),
      (m.filter (fun p => decide (now - p.2.lastSeen ≤ idle))).length
        + (m.filter (fun p => decide (idle < now - p.2.lastSeen))).length = m.length := by
    intro m
    induction m with
    | nil => rfl
    | cons p rest ih =>
      rw [List.filter_cons, List.filter_cons]
      by_cases hs : idle < now - p.2.lastSeen
      · rw [if_neg (by simpa using not_le.mpr hs), if_pos (by simpa using hs)]
        simp only [List.length_cons]
        omega
      · rw [if_pos (by simpa using not_lt.mp hs), if_neg (by simpa using hs)]
        simp only [List.length_cons]
        omega
  obtain ⟨h1, h2⟩ := hpass l.limiters
  have hsum : (l.cleanupStale now idle).1 + (l.cleanupStale now idle).2.size = l.size := by
    show (stalePass l.limiters now idle).1 + (stalePass l.limiters now idle).2.length
      = l.limiters.length
    rw [h1, h2]
    have := hsplit l.limiters
    omega
  refine ⟨h1, h2, hsum, ?_⟩
  intro hall
  have hkeep : l.limiters.filter (fun p => decide (now - p.2.lastSeen ≤ idle)) = [] := by
    rw [List.filter_eq_nil_iff]
    intro p hp
    simp only [decide_eq_true_eq]
    exact not_le.mpr (hall p hp)
  have hsize0 : (l.cleanupStale now idle).2.size = 0 := by
    show (stalePass l.limiters now idle).2.length = 0
    rw [h1, hkeep]
    rfl
  refine ⟨?_, hsize0⟩
  omega

/-- A limiter with five buckets, all last seen at time 0. -/
def demoLimiter : Limiter :=
  { limiters := [("1", ⟨rateNewLimiter 1 1 0, 0⟩), ("2", ⟨rateNewLimiter 1 1 0, 0⟩),
      ("3", ⟨rateNewLimiter 1 1 0, 0⟩), ("4", ⟨rateNewLimiter 1 1 0, 0⟩),
      ("5", ⟨rateNewLimiter 1 1 0, 0⟩)],
    limit := 1, burst := 1 }

/-- Witness for C8: five buckets all idle longer than the timeout —
`CleanupStale` returns 5 and `Size` then returns 0. -/
theorem cleanup_stale_spec_witness :
    (demoLimiter.cleanupStale 11 10).1 = 5 ∧ (demoLimiter.cleanupStale 11 10).2.size = 0 := by
  have h := (cleanup_stale_spec demoLimiter 11 10).2.2.2 (by
    intro p hp
    fin_cases hp <;> norm_num [demoLimiter])
  exact ⟨h.1, h.2⟩

lemma lookup_none_countP {β : Type} (l : List (String × β)) (ip : String)
    (h : l.lookup ip = none) : l.countP (fun p => p.1 == ip) = 0 := by
  induction l with
  | nil => rfl
  | cons p rest ih =>
    obtain ⟨k, v⟩ := p
    by_cases hk : ip = k
    · subst hk
      simp [List.lookup] at h
    · have hbeq : (ip == k) = false := by
        simp only [beq_eq_false_iff_ne]
        exact hk
      simp only [List.lookup, hbeq] at h
      have hbeq2 : (k == ip) = false := by
        simp only [beq_eq_false_iff_ne]
        exact fun he => hk he.symm
      rw [List.countP_cons]
      simp [hbeq2, ih h]

lemma assocSetCL_append (l : List (String × ClientLimiter)) (ip : String)
    (v : ClientLimiter) (h : l.lookup ip = none) :
    assocSetCL l ip v = l ++ [(ip, v)] := by
  induction l with
  | nil => rfl
  | cons p rest ih =>
    obtain ⟨k, v'⟩ := p
    by_cases hk : ip = k
    · subst hk
      simp [List.lookup] at h
    · have hbeq : (ip == k) = false := by
        simp only [beq_eq_false_iff_ne]
        exact hk
      simp only [List.lookup, hbeq] at h
      have hkk : ¬ k = ip := fun he => hk he.symm
      simp [assocSetCL, hkk, ih h]

/-- Claim C10. First `Allow` for an unseen client IP: with `burst ≥ 1` it
creates exactly one bucket for that IP (appended to the map, all other
clients untouched) and returns `true` — a fresh bucket starts full. -/
theorem allow_new_client (l : Limiter) (now : ℚ) (ip : String)
    (habs : l.limiters.lookup ip = none) (hburst : 1 ≤ l.burst) :
    (l.allow now ip).1 = true ∧
    (l.allow now ip).2.limiters.countP (fun p => p.1 == ip) = 1 ∧
    (∀ ip', ip' ≠ ip → (l.allow now ip).2.limiters.lookup ip' = l.limiters.lookup ip') := by
  have h1le : (1 : ℚ) ≤ ((l.burst : Nat) : ℚ) := by exact_mod_cast hburst
  have hfresh1 : ((rateNewLimiter l.limit l.burst now).allow now).1 = true := by
    unfold TokenBucket.allow rateNewLimiter
    simp only [sub_self, mul_zero, add_zero, min_self]
    rw [if_pos h1le]
  have hstep : l.allow now ip = l.createNewLimiter now ip := by
    unfold Limiter.allow
    rw [habs]
  have hcreate : l.createNewLimiter now ip
      = (((rateNewLimiter l.limit l.burst now).allow now).1, Limiter.mk (assocSetCL l.limiters ip (ClientLimiter.mk ((rateNewLimiter l.limit l.burst now).allow now).2 now)) l.limit l.burst) := by
    unfold Limiter.createNewLimiter
    rw [habs]
  rw [hstep, hcreate]
  refine ⟨hfresh1, ?_, ?_⟩
  · simp only [assocSetCL_append l.limiters ip _ habs]
    rw [List.countP_append, lookup_none_countP l.limiters ip habs]
    simp
  · intro ip' hne
    simp only [assocSetCL_append l.limiters ip _ habs]
    induction l.limiters with
    | nil =>
      have hbeq0 : (ip' == ip) = false := by
        simp only [beq_eq_false_iff_ne]
        exact hne
      simp [List.lookup, hbeq0]
    | cons p rest ih =>
      obtain ⟨k, v⟩ := p
      by_cases hk : ip' = k
      · subst hk
        simp [List.lookup]
      · have hbeq : (ip' == k) = false := by
          simp only [beq_eq_false_iff_ne]
          exact hk
        simp [List.lookup, hbeq, ih]

/-- Witness for C10: a fresh limiter (rpm 60, burst 10) admits the first
request of a new client and holds exactly one bucket for it. -/
theorem allow_new_client_witness :
    ((newLimiter 60 10).allow 0 "9.9.9.9").1 = true ∧
    ((newLimiter 60 10).allow 0 "9.9.9.9").2.limiters.countP
      (fun p => p.1 == "9.9.9.9") = 1 := by
  have h := allow_new_client (newLimiter 60 10) 0 "9.9.9.9" (by decide) (by decide)
  exact ⟨h.1, h.2.1⟩

end ProxyKP
